import Mathlib

/-!
Shallow embedding of src/count_primes/count_primes.c, a segmented Sieve of
Eratosthenes that counts primes in a half-open interval [start, start+length)
of 64-bit signed integers.

Modelling conventions:
* C int64_t values are modelled as unbounded ℤ; the theorems carry the
  range hypotheses under which the C program performs no signed overflow in
  the quantities the claims speak about (chiefly start+length within the
  64-bit signed range).
* A sieve_t (a heap-allocated array of cells, one per represented integer,
  together with its length) is modelled as a total function ℤ → Bool for the
  cells plus, where the length field is read, an explicit length argument.
  A cell is true while its index is still considered possibly prime.
  init_sieve sets every cell true; mark_composite sets one cell false;
  prime_p reads a cell, i.e. is plain application in this embedding.
* Each C for/while loop becomes one recursive function whose arguments are
  the loop's mutable state; loops whose termination relies on a loop
  invariant of the surrounding code (for instance i >= 2 inside
  find_small_primes) carry that invariant as a propositional argument.
-/

/-- Cell array of a freshly initialized sieve (init_sieve): every index is
still possibly prime, i.e. every cell reads true. -/
def initSieve : ℤ → Bool := fun _ => true

/-- Embedding of mark_composite(sieve, v): set the cell for v to false,
leaving every other cell unchanged. -/
def mark_composite (s : ℤ → Bool) (v : ℤ) : ℤ → Bool :=
  fun x => if x = v then false else s x

/-- Embedding of the constant MAX_SIEVE_LENGTH = (int64_t)1 << 30 from line
111 of count_primes.c. -/
def MAX_SIEVE_LENGTH : ℤ := 2 ^ 30

/-- Embedding of the C expression
(int64_t)((double)1.42 * ((int64_t)1 << 31)) on line 119 of count_primes.c.
The IEEE-754 double nearest to 1.42 is 6395111470866104 * 2^(-52) (which is
strictly below 1.42); multiplying by 2^31 only changes the exponent, so the
product is exactly 6395111470866104 * 2^(-21) = 3049426780.16, and the cast
to int64_t truncates toward zero, yielding 3049426780.  The lemma
upper_bound_eq_trunc below re-derives this value from the rounded rational.
Note that this is one less than the value ceil(1.42 * 2^31) = 3049426781
that the specification states. -/
def upper_bound : ℤ := 3049426780

/-- Rational value of the IEEE-754 double nearest to 1.42 (round to nearest,
ties to even: 1.42 * 2^52 = 6395111470866104.32 rounds down). -/
def double_of_142 : ℚ := 6395111470866104 / 2 ^ 52

/-- Inner loop of find_small_primes (lines 146-148): mark i*j composite for
j = j0, j0+1, ... while i*j < ub.  The loop body only runs for i >= 2 (the
outer scan starts at 2), which is also what makes the loop terminate. -/
def markLoop (s : ℤ → Bool) (ub i j : ℤ) (hi : 2 ≤ i) : ℤ → Bool :=
  if i * j < ub then markLoop (mark_composite s (i * j)) ub i (j + 1) hi else s
termination_by (ub - i * j).toNat
decreasing_by
  have h1 : i * (j + 1) = i * j + i := by ring
  omega

/-- Outer loop of find_small_primes (lines 134-149): scan i upward from 2;
whenever the cell of i still reads true (i is prime), mark all multiples
i*j, j >= 2, below ub as composite. -/
def sieveLoop (s : ℤ → Bool) (ub i : ℤ) (hi : 2 ≤ i) : ℤ → Bool :=
  if i < ub then
    sieveLoop (if s i then markLoop s ub i 2 hi else s) ub (i + 1) (by omega)
  else s
termination_by (ub - i).toNat
decreasing_by omega

/-- Embedding of find_small_primes (lines 118-152): run a classical Sieve of
Eratosthenes over [0, upper_bound): initialize all cells true, mark 0 and 1
composite, then scan from 2.  The function returns the final cell array; the
length field of the returned sieve_t is upper_bound. -/
def find_small_primes : ℤ → Bool :=
  sieveLoop (mark_composite (mark_composite initSieve 0) 1) upper_bound 2 (by norm_num)

/-- Embedding of the kp_index computation (lines 199-205 of count_primes.c):
  kp_index = start % p; if (0 != kp_index) kp_index = p - kp_index;
  if (start + kp_index == p) kp_index += p;
For start >= 0 and p > 0 the C remainder agrees with Int.emod used here. -/
def kpIndex (start p : ℤ) : ℤ :=
  let k0 := start % p
  let k1 := if k0 ≠ 0 then p - k0 else k0
  if start + k1 = p then k1 + p else k1

/-- Marking loop of count_primes_in_interval_helper (lines 211-213): mark
index k, k+p, k+2p, ... composite while the index is below len.  The loop
runs only for primes p >= 2; positivity of p is what terminates it. -/
def markSegLoop (s : ℤ → Bool) (len p k : ℤ) (hp : 1 ≤ p) : ℤ → Bool :=
  if k < len then markSegLoop (mark_composite s k) len p (k + p) hp else s
termination_by (len - k).toNat
decreasing_by omega

/-- Loop over p of count_primes_in_interval_helper (lines 184-214): for each
p from 2 up to small_primes->length - 1 (slen here), skip p if its cell in
small reads false; otherwise mark every index of a multiple of p in the
segment, starting from kpIndex start p. -/
def helperLoop (small : ℤ → Bool) (slen : ℤ) (s : ℤ → Bool) (start len p : ℤ)
    (hp : 2 ≤ p) : ℤ → Bool :=
  if p < slen then
    helperLoop small slen
      (if small p then markSegLoop s len p (kpIndex start p) (by omega) else s)
      start len (p + 1) (by omega)
  else s
termination_by (slen - p).toNat
decreasing_by omega

/-- Counting loop of count_primes_in_interval_helper (lines 217-226): scan
indices i = 0.. len-1 and add one to the accumulator for every cell that
still reads true. -/
def countLoop (s : ℤ → Bool) (len i acc : ℤ) : ℤ :=
  if i < len then countLoop s len (i + 1) (acc + if s i then 1 else 0) else acc
termination_by (len - i).toNat
decreasing_by omega

/-- Embedding of count_primes_in_interval_helper (lines 165-232): create and
initialize a segment sieve of len cells (index i stands for the integer
start + i), mark composites against the small-primes table, then count the
surviving cells.  small is the cell array of the small-primes sieve and slen
its length field (the source reads small_primes->length). -/
def count_primes_in_interval_helper (start len : ℤ) (small : ℤ → Bool)
    (slen : ℤ) : ℤ :=
  countLoop (helperLoop small slen initSieve start len 2 (by norm_num)) len 0 0

/-- Final cell array of the helper's segment sieve when called, as in the
program, with the small-primes table and its length upper_bound. -/
def segmentSieve (start len : ℤ) : ℤ → Bool :=
  helperLoop find_small_primes upper_bound initSieve start len 2 (by norm_num)

/-- Segmentation loop of count_primes_in_interval (lines 267-278): while
more than MAX_SIEVE_LENGTH values remain, count a segment of exactly
MAX_SIEVE_LENGTH values and advance; finally count the remaining values as
the last segment.  acc is the running num_primes total. -/
def segmentLoop (small : ℤ → Bool) (slen start len acc : ℤ) : ℤ :=
  if MAX_SIEVE_LENGTH < len then
    segmentLoop small slen (start + MAX_SIEVE_LENGTH) (len - MAX_SIEVE_LENGTH)
      (acc + count_primes_in_interval_helper start MAX_SIEVE_LENGTH small slen)
  else acc + count_primes_in_interval_helper start len small slen
termination_by len.toNat
decreasing_by
  have h30 : MAX_SIEVE_LENGTH = 2 ^ 30 := rfl
  omega

/-- Embedding of count_primes_in_interval (lines 238-284): return 0 for
nonpositive lengths and for intervals whose high endpoint is at most 2;
otherwise clamp the interval to start at least 2, build the small-primes
table once, and run the segmentation loop with accumulator 0. -/
def count_primes_in_interval (start len : ℤ) : ℤ :=
  if len ≤ 0 then 0
  else if start + len ≤ 2 then 0
  else
    segmentLoop find_small_primes upper_bound
      (if start < 2 then 2 else start)
      (if start < 2 then len - (2 - start) else len) 0

/-- Specification-side count: the number of primes in the half-open integer
interval [a, b), where negative numbers, 0 and 1 are not prime (for v < 0,
v.toNat = 0, which is not prime). -/
def primeCount (a b : ℤ) : ℕ :=
  ((Finset.Ico a b).filter (fun v => Nat.Prime v.toNat)).card

/-- Specification-side classical sieve for the refinement claim C5: one
unsegmented pass of the naive Sieve of Eratosthenes over [0, n) (initialize
all cells true, mark 0 and 1 composite, scan from 2 marking multiples);
this is the algorithm of section 4.2 of the specification run at bound n. -/
def classicSieve (n : ℤ) : ℤ → Bool :=
  sieveLoop (mark_composite (mark_composite initSieve 0) 1) n 2 (by norm_num)

/-- Specification-side count for the refinement claim C5: sieve [0,
start+len) in one unsegmented naive pass and count the surviving cells for
the values start, start+1, ..., start+len-1. -/
def naiveSieveCount (start len : ℤ) : ℤ :=
  countLoop (fun i => classicSieve (start + len) (start + i)) len 0 0

/-- Trace of the segmentation loop of count_primes_in_interval: the list of
(start, length) argument pairs that the loop of lines 267-278 passes to
count_primes_in_interval_helper, in order. -/
def segmentCalls (start len : ℤ) : List (ℤ × ℤ) :=
  if MAX_SIEVE_LENGTH < len then
    (start, MAX_SIEVE_LENGTH) :: segmentCalls (start + MAX_SIEVE_LENGTH) (len - MAX_SIEVE_LENGTH)
  else [(start, len)]
termination_by len.toNat
decreasing_by
  have h30 : MAX_SIEVE_LENGTH = 2 ^ 30 := rfl
  omega

/-- Trace of count_primes_in_interval: the list of (start, length) argument
pairs passed to count_primes_in_interval_helper during one top-level call,
after the early returns and the clamping of lines 242-257. -/
def count_primes_calls (start len : ℤ) : List (ℤ × ℤ) :=
  if len ≤ 0 then []
  else if start + len ≤ 2 then []
  else
    segmentCalls (if start < 2 then 2 else start)
      (if start < 2 then len - (2 - start) else len)

/-- Trace of the marking loop of count_primes_in_interval_helper (lines
211-213): the list of indices passed to mark_composite for one prime p,
starting from index k. -/
def markSegIdxs (len p k : ℤ) (hp : 1 ≤ p) : List ℤ :=
  if k < len then k :: markSegIdxs len p (k + p) hp else []
termination_by (len - k).toNat
decreasing_by omega

/-- Trace of the loop over p of count_primes_in_interval_helper: all indices
passed to mark_composite on the segment sieve, over every p from p0 up to
slen - 1 whose cell in small reads true. -/
def helperMarks (small : ℤ → Bool) (slen start len p : ℤ) (hp : 2 ≤ p) : List ℤ :=
  if p < slen then
    (if small p then markSegIdxs len p (kpIndex start p) (by omega) else []) ++
      helperMarks small slen start len (p + 1) (by omega)
  else []
termination_by (slen - p).toNat
decreasing_by omega

/-- All indices that count_primes_in_interval_helper passes to
mark_composite on its segment sieve of length len. -/
def helperMarkIndices (start len : ℤ) (small : ℤ → Bool) (slen : ℤ) : List ℤ :=
  helperMarks small slen start len 2 (by norm_num)

/-- Trace of the inner loop of find_small_primes (lines 146-148): the values
i*j, for j = j0, j0+1, ... while i*j < ub, passed to mark_composite. -/
def markLoopVals (ub i j : ℤ) (hi : 2 ≤ i) : List ℤ :=
  if i * j < ub then i * j :: markLoopVals ub i (j + 1) hi else []
termination_by (ub - i * j).toNat
decreasing_by
  have h1 : i * (j + 1) = i * j + i := by ring
  omega

/-- Trace of the outer scan of find_small_primes: all values passed to
mark_composite while scanning i upward from its current value, given the
current cell array s (the scan skips any i whose cell already reads false). -/
def sieveMarks (s : ℤ → Bool) (ub i : ℤ) (hi : 2 ≤ i) : List ℤ :=
  if i < ub then
    (if s i then
      markLoopVals ub i 2 hi ++ sieveMarks (markLoop s ub i 2 hi) ub (i + 1) (by omega)
    else sieveMarks s ub (i + 1) (by omega))
  else []
termination_by (ub - i).toNat
decreasing_by
  all_goals omega

/-- All values that find_small_primes passes to mark_composite: 0 and 1
(lines 130-131) followed by the trace of the scan from 2. -/
def findSmallMarkValues : List ℤ :=
  0 :: 1 :: sieveMarks (mark_composite (mark_composite initSieve 0) 1) upper_bound 2 (by norm_num)

/-- Verification invariant for cell arrays of a sieve based at 0: a cell
reads false only for 0, for 1, or for a product of two integers that are
both at least 2 (a composite).  Equivalently, every prime cell reads true. -/
def SoundSieve (s : ℤ → Bool) : Prop :=
  ∀ v, s v = false → v = 0 ∨ v = 1 ∨ ∃ a b, 2 ≤ a ∧ 2 ≤ b ∧ v = a * b

/-- Initial cell array of the small-primes sieve, after init_sieve and the
marking of 0 and 1 on lines 130-131 of count_primes.c. -/
def smallInit : ℤ → Bool :=
  mark_composite (mark_composite initSieve 0) 1

/-!
Lemmas about mark_composite and the two loops of find_small_primes.
-/

theorem mark_composite_true_imp (s : ℤ → Bool) (v x : ℤ)
    (h : mark_composite s v x = true) : s x = true := by
  unfold mark_composite at h
  by_cases hx : x = v
  · simp [hx] at h
  · simpa [hx] using h

theorem mark_composite_false_iff (s : ℤ → Bool) (v x : ℤ) :
    mark_composite s v x = false ↔ x = v ∨ s x = false := by
  unfold mark_composite
  by_cases hx : x = v <;> simp [hx]

theorem markLoop_mono (s : ℤ → Bool) (ub i j : ℤ) (hi : 2 ≤ i) (x : ℤ)
    (h : markLoop s ub i j hi x = true) : s x = true := by
  induction s, ub, i, j, hi using markLoop.induct with
  | case1 s ub i j hi hlt ih =>
    rw [markLoop, if_pos hlt] at h
    exact mark_composite_true_imp _ _ _ (ih h)
  | case2 s ub i j hi hlt =>
    rw [markLoop, if_neg hlt] at h
    exact h

theorem markLoop_marks (s : ℤ → Bool) (ub i j : ℤ) (hi : 2 ≤ i) (m : ℤ)
    (hjm : j ≤ m) (hub : i * m < ub) : markLoop s ub i j hi (i * m) = false := by
  induction s, ub, i, j, hi using markLoop.induct with
  | case1 s ub i j hi hlt ih =>
    rw [markLoop, if_pos hlt]
    rcases eq_or_lt_of_le hjm with heq | hlt2
    · subst heq
      by_cases hfin : markLoop (mark_composite s (i * j)) ub i (j + 1) hi (i * j) = true
      · have := markLoop_mono _ _ _ _ _ _ hfin
        simp [mark_composite] at this
      · simpa using hfin
    · exact ih (by omega) hub
  | case2 s ub i j hi hlt =>
    exfalso
    have : i * j ≤ i * m := by
      apply mul_le_mul_of_nonneg_left (by omega) (by omega)
    omega

theorem soundSieve_mark (s : ℤ → Bool) (v : ℤ) (hs : SoundSieve s)
    (hv : v = 0 ∨ v = 1 ∨ ∃ a b, 2 ≤ a ∧ 2 ≤ b ∧ v = a * b) :
    SoundSieve (mark_composite s v) := by
  intro x hx
  rcases (mark_composite_false_iff s v x).1 hx with hxv | hxs
  · subst hxv; exact hv
  · exact hs x hxs

theorem markLoop_sound (s : ℤ → Bool) (ub i j : ℤ) (hi : 2 ≤ i)
    (hj : 2 ≤ j) (hs : SoundSieve s) : SoundSieve (markLoop s ub i j hi) := by
  induction s, ub, i, j, hi using markLoop.induct with
  | case1 s ub i j hi hlt ih =>
    rw [markLoop, if_pos hlt]
    exact ih (by omega) (soundSieve_mark s (i * j) hs (Or.inr (Or.inr ⟨i, j, hi, hj, rfl⟩)))
  | case2 s ub i j hi hlt =>
    rw [markLoop, if_neg hlt]
    exact hs

theorem sieveLoop_mono (s : ℤ → Bool) (ub i : ℤ) (hi : 2 ≤ i) (x : ℤ)
    (h : sieveLoop s ub i hi x = true) : s x = true := by
  induction s, ub, i, hi using sieveLoop.induct with
  | case1 s ub i hi hlt ih =>
    rw [sieveLoop, if_pos hlt] at h
    have h2 := ih h
    by_cases hsi : s i = true
    · rw [dif_pos hsi] at h2
      exact markLoop_mono _ _ _ _ _ _ h2
    · rw [dif_neg hsi] at h2
      exact h2
  | case2 s ub i hi hlt =>
    rw [sieveLoop, if_neg hlt] at h
    exact h

theorem sieveLoop_sound (s : ℤ → Bool) (ub i : ℤ) (hi : 2 ≤ i)
    (hs : SoundSieve s) : SoundSieve (sieveLoop s ub i hi) := by
  induction s, ub, i, hi using sieveLoop.induct with
  | case1 s ub i hi hlt ih =>
    rw [sieveLoop, if_pos hlt]
    apply ih
    by_cases hsi : s i = true
    · rw [dif_pos hsi]
      exact markLoop_sound s ub i 2 hi le_rfl hs
    · rwa [dif_neg hsi]
  | case2 s ub i hi hlt =>
    rw [sieveLoop, if_neg hlt]
    exact hs

theorem soundSieve_prime_true (s : ℤ → Bool) (hs : SoundSieve s) (v : ℤ)
    (h0 : 0 ≤ v) (hp : v.toNat.Prime) : s v = true := by
  by_contra hfalse
  have hfalse2 : s v = false := by simpa using hfalse
  rcases hs v hfalse2 with h | h | ⟨a, b, ha, hb, hab⟩
  · subst h
    exact Nat.not_prime_zero (by simpa using hp)
  · subst h
    exact Nat.not_prime_one (by simpa using hp)
  · have hna : 2 ≤ a.toNat := by omega
    have hnb : 2 ≤ b.toNat := by omega
    have hmul : v.toNat = a.toNat * b.toNat := by
      subst hab
      have h1 : a * b = ((a.toNat * b.toNat : ℕ) : ℤ) := by
        push_cast
        rw [Int.toNat_of_nonneg (by omega : (0:ℤ) ≤ a),
          Int.toNat_of_nonneg (by omega : (0:ℤ) ≤ b)]
      rw [h1, Int.toNat_natCast]
    rw [hmul] at hp
    rcases Nat.prime_mul_iff.1 hp with ⟨_, hb1⟩ | ⟨_, ha1⟩
    · omega
    · omega

theorem sieveLoop_marks (s : ℤ → Bool) (ub i : ℤ) (hi : 2 ≤ i)
    (hs : SoundSieve s) (p m : ℤ) (hip : i ≤ p) (hprime : p.toNat.Prime)
    (hm : 2 ≤ m) (hub : p * m < ub) : sieveLoop s ub i hi (p * m) = false := by
  induction s, ub, i, hi using sieveLoop.induct with
  | case1 s ub i hi hlt ih =>
    rw [sieveLoop, if_pos hlt]
    have hp2 : 2 ≤ p := by
      have := hprime.two_le
      omega
    rcases eq_or_lt_of_le hip with heq | hlt2
    · subst heq
      have hsi : s i = true :=
        soundSieve_prime_true s hs i (by omega) hprime
      by_cases hfin :
          sieveLoop (if h : s i = true then markLoop s ub i 2 hi else s) ub (i + 1)
            (by omega) (i * m) = true
      · exfalso
        have h2 := sieveLoop_mono _ _ _ _ _ hfin
        rw [dif_pos hsi] at h2
        have h3 := markLoop_marks s ub i 2 hi m hm hub
        rw [h3] at h2
        exact absurd h2 (by simp)
      · simpa using hfin
    · exact ih
        (by
          by_cases hsi : s i = true
          · rw [dif_pos hsi]
            exact markLoop_sound s ub i 2 hi le_rfl hs
          · rwa [dif_neg hsi])
        (by omega) hub
  | case2 s ub i hi hlt =>
    exfalso
    have hp2 : 2 ≤ p := by
      have := hprime.two_le
      omega
    have hpm : p * 2 ≤ p * m := by
      apply mul_le_mul_of_nonneg_left hm (by omega)
    omega

theorem smallInit_sound : SoundSieve smallInit := by
  intro v hv
  unfold smallInit mark_composite initSieve at hv
  by_cases h1 : v = 1
  · exact Or.inr (Or.inl h1)
  · left
    by_cases h0 : v = 0
    · exact h0
    · simp [h0, h1] at hv

theorem classicSieve_eq_sieveLoop (n : ℤ) :
    classicSieve n = sieveLoop smallInit n 2 (by norm_num) := rfl

theorem classicSieve_true_of_prime (n v : ℤ) (h0 : 0 ≤ v)
    (hp : v.toNat.Prime) : classicSieve n v = true := by
  rw [classicSieve_eq_sieveLoop]
  exact soundSieve_prime_true _ (sieveLoop_sound _ _ _ _ smallInit_sound) v h0 hp

theorem classicSieve_false_of_composite (n v : ℤ) (h2 : 2 ≤ v) (hn : v < n)
    (hc : ¬ v.toNat.Prime) : classicSieve n v = false := by
  have hv2 : 2 ≤ v.toNat := by omega
  have hq : v.toNat.minFac.Prime := Nat.minFac_prime (by omega)
  have hqd : v.toNat.minFac ∣ v.toNat := Nat.minFac_dvd v.toNat
  obtain ⟨m, hm⟩ := hqd
  have hq2 : 2 ≤ v.toNat.minFac := hq.two_le
  have hm2 : 2 ≤ m := by
    rcases Nat.lt_or_ge m 2 with h | h
    · interval_cases m
      · omega
      · exfalso
        apply hc
        rw [hm, Nat.mul_one]
        exact hq
    · exact h
  have hvz : v = ((v.toNat.minFac : ℤ)) * ((m : ℤ)) := by
    have : (v.toNat : ℤ) = ((v.toNat.minFac * m : ℕ) : ℤ) := by exact_mod_cast hm
    push_cast at this
    rw [Int.toNat_of_nonneg (by omega)] at this
    exact this
  rw [classicSieve_eq_sieveLoop, hvz]
  apply sieveLoop_marks _ _ _ _ smallInit_sound _ _ (by exact_mod_cast hq2)
    (by simpa using hq) (by exact_mod_cast hm2) (by rw [← hvz]; omega)

theorem classicSieve_zero (n : ℤ) : classicSieve n 0 = false := by
  by_contra h
  have h2 : classicSieve n 0 = true := by simpa using h
  rw [classicSieve_eq_sieveLoop] at h2
  have := sieveLoop_mono _ _ _ _ _ h2
  simp [smallInit, mark_composite] at this

theorem classicSieve_one (n : ℤ) : classicSieve n 1 = false := by
  by_contra h
  have h2 : classicSieve n 1 = true := by simpa using h
  rw [classicSieve_eq_sieveLoop] at h2
  have := sieveLoop_mono _ _ _ _ _ h2
  simp [smallInit, mark_composite] at this

theorem classicSieve_iff (n v : ℤ) (h0 : 0 ≤ v) (hn : v < n) :
    (classicSieve n v = true ↔ v.toNat.Prime) := by
  rcases Int.lt_or_le v 2 with h | h
  · interval_cases v
    · simp [classicSieve_zero, Nat.not_prime_zero]
    · simp [classicSieve_one, Nat.not_prime_one]
  · constructor
    · intro htrue
      by_contra hc
      rw [classicSieve_false_of_composite n v h hn hc] at htrue
      exact absurd htrue (by simp)
    · intro hp
      exact classicSieve_true_of_prime n v h0 hp

theorem find_small_primes_eq : find_small_primes = classicSieve upper_bound := rfl

theorem find_small_primes_iff (v : ℤ) (h0 : 0 ≤ v) (hv : v < upper_bound) :
    (find_small_primes v = true ↔ v.toNat.Prime) := by
  rw [find_small_primes_eq]
  exact classicSieve_iff upper_bound v h0 hv

/-!
Numeric facts about upper_bound, and the characterization of kpIndex.
-/

theorem upper_bound_eq_trunc : upper_bound = ⌊double_of_142 * 2 ^ 31⌋ := by
  have h : double_of_142 * 2 ^ 31 = 6395111470866104 / 2 ^ 21 := by
    unfold double_of_142
    norm_num
  rw [h]
  symm
  rw [Int.floor_eq_iff]
  norm_num [upper_bound]

theorem ceil_of_142_pow31 : ⌈(142 / 100 : ℚ) * 2 ^ 31⌉ = 3049426781 := by
  rw [Int.ceil_eq_iff]
  norm_num

theorem upper_bound_sq_gt : 2 ^ 63 < upper_bound ^ 2 := by
  norm_num [upper_bound]

theorem minFac_lt_upper_bound (v : ℤ) (h2 : 2 ≤ v) (hv : v < 2 ^ 63)
    (hc : ¬ v.toNat.Prime) : (v.toNat.minFac : ℤ) < upper_bound := by
  have hsq : v.toNat.minFac ^ 2 ≤ v.toNat :=
    Nat.minFac_sq_le_self (by omega) hc
  have hsqz : ((v.toNat.minFac : ℤ)) ^ 2 ≤ v := by
    have h1 : ((v.toNat.minFac ^ 2 : ℕ) : ℤ) ≤ ((v.toNat : ℕ) : ℤ) := by
      exact_mod_cast hsq
    push_cast at h1
    rwa [Int.toNat_of_nonneg (by omega)] at h1
  by_contra hcon
  push_neg at hcon
  have hub2 : upper_bound ^ 2 ≤ ((v.toNat.minFac : ℤ)) ^ 2 :=
    pow_le_pow_left₀ (by norm_num [upper_bound]) hcon 2
  have := upper_bound_sq_gt
  omega

theorem kpIndex_nonneg (start p : ℤ) (hp : 1 ≤ p) : 0 ≤ kpIndex start p := by
  have hr0 : 0 ≤ start % p := Int.emod_nonneg start (by omega)
  have hrp : start % p < p := Int.emod_lt_of_pos start (by omega)
  unfold kpIndex
  by_cases hr : start % p = 0 <;> simp only [hr] <;> split <;> omega

theorem kpIndex_dvd (start p : ℤ) (hp : 1 ≤ p) : p ∣ start + kpIndex start p := by
  have hdr : p ∣ start - start % p := by
    refine ⟨start / p, ?_⟩
    rw [Int.emod_def]
    ring
  rcases hdr with ⟨c, hc⟩
  unfold kpIndex
  by_cases hr : start % p = 0 <;> simp only [hr] <;> split
  · exact absurd rfl (by assumption)
  · split
    · refine ⟨c + 1, ?_⟩
      have h1 : p * (c + 1) = p * c + p := by ring
      omega
    · refine ⟨c, ?_⟩
      omega
  · split
    · refine ⟨c + 2, ?_⟩
      have h1 : p * (c + 2) = p * c + p + p := by ring
      omega
    · refine ⟨c + 1, ?_⟩
      have h1 : p * (c + 1) = p * c + p := by ring
      omega
  · exact absurd (by omega : start % p = 0) (by assumption)

theorem kpIndex_gt (start p : ℤ) (hs : 2 ≤ start) (hp : 2 ≤ p) :
    p < start + kpIndex start p := by
  have hr0 : 0 ≤ start % p := Int.emod_nonneg start (by omega)
  have hrp : start % p < p := Int.emod_lt_of_pos start (by omega)
  have hdvd := kpIndex_dvd start p (by omega)
  have hnn := kpIndex_nonneg start p (by omega)
  have hpos : 0 < start + kpIndex start p := by omega
  have hge : p ≤ start + kpIndex start p := Int.le_of_dvd hpos hdvd
  rcases eq_or_lt_of_le hge with heq | hlt
  · exfalso
    revert heq
    unfold kpIndex
    by_cases hr : start % p = 0 <;> simp only [hr] <;> split <;> omega
  · exact hlt

theorem kpIndex_min (start p k : ℤ) (hs : 2 ≤ start) (hp : 2 ≤ p) (hk : 0 ≤ k)
    (hdvd : p ∣ start + k) (hgt : p < start + k) : kpIndex start p ≤ k := by
  have hr0 : 0 ≤ start % p := Int.emod_nonneg start (by omega)
  have hrp : start % p < p := Int.emod_lt_of_pos start (by omega)
  have hdvd1 := kpIndex_dvd start p (by omega)
  have hnn := kpIndex_nonneg start p (by omega)
  have hdiff : p ∣ k - kpIndex start p := by
    have h1 : k - kpIndex start p = (start + k) - (start + kpIndex start p) := by ring
    rw [h1]
    exact dvd_sub hdvd hdvd1
  have hk1lt : kpIndex start p < 2 * p := by
    unfold kpIndex
    by_cases hr : start % p = 0 <;> simp only [hr] <;> split <;> omega
  by_contra hcon
  push_neg at hcon
  have hne : k - kpIndex start p ≠ 0 := by omega
  have habs : |k - kpIndex start p| < p ∨ kpIndex start p ≤ k := by
    rcases Int.lt_or_le k (kpIndex start p) with h | h
    · by_cases hcase : kpIndex start p - k < p
      · left
        rw [abs_sub_lt_iff]
        omega
      · -- kpIndex >= k + p, so kpIndex >= p (with k >= 0); since kpIndex < 2p,
        -- the adjusted branch was taken, i.e. start + (kpIndex - p) = p.
        exfalso
        have hadj : start + (kpIndex start p - p) = p := by
          revert hcase
          unfold kpIndex
          by_cases hr : start % p = 0 <;> simp only [hr] <;> split <;> omega
        -- then start + k ≡ 0 mod p and start + k > p force start + k ≥ 2p,
        -- i.e. k ≥ kpIndex - p + p = kpIndex, contradicting k < kpIndex.
        have h2p : 2 * p ≤ start + k := by
          rcases hdvd with ⟨c, hc⟩
          have hc2 : 2 ≤ c := by nlinarith
          nlinarith
        omega
    · right
      exact h
  rcases habs with h | h
  · have := Int.eq_zero_of_abs_lt_dvd hdiff h
    omega
  · omega

/-!
Characterization of the marking performed on a segment sieve.
-/

theorem markSegLoop_false_iff (s : ℤ → Bool) (len p k : ℤ) (hp : 1 ≤ p) (x : ℤ) :
    markSegLoop s len p k hp x = false ↔
      s x = false ∨ ∃ t, 0 ≤ t ∧ x = k + t * p ∧ x < len := by
  induction s, len, p, k, hp using markSegLoop.induct with
  | case1 s len p k hp hlt ih =>
    rw [markSegLoop, if_pos hlt]
    rw [ih]
    constructor
    · rintro (hmk | ⟨t, ht0, hx, hxlen⟩)
      · rcases (mark_composite_false_iff s k x).1 hmk with hxk | hsx
        · exact Or.inr ⟨0, le_rfl, by omega, by omega⟩
        · exact Or.inl hsx
      · refine Or.inr ⟨t + 1, by omega, ?_, hxlen⟩
        have h1 : (t + 1) * p = t * p + p := by ring
        omega
    · rintro (hsx | ⟨t, ht0, hx, hxlen⟩)
      · exact Or.inl ((mark_composite_false_iff s k x).2 (Or.inr hsx))
      · rcases eq_or_lt_of_le ht0 with ht | ht
        · subst ht
          exact Or.inl ((mark_composite_false_iff s k x).2 (Or.inl (by omega)))
        · refine Or.inr ⟨t - 1, by omega, ?_, hxlen⟩
          have h1 : (t - 1) * p = t * p - p := by ring
          omega
  | case2 s len p k hp hlt =>
    rw [markSegLoop, if_neg hlt]
    constructor
    · intro h
      exact Or.inl h
    · rintro (h | ⟨t, ht0, hx, hxlen⟩)
      · exact h
      · exfalso
        have htp : 0 ≤ t * p := mul_nonneg ht0 (by omega)
        omega

theorem helperLoop_false_iff (small : ℤ → Bool) (slen : ℤ) (s : ℤ → Bool)
    (start len p : ℤ) (hp : 2 ≤ p) (x : ℤ) :
    helperLoop small slen s start len p hp x = false ↔
      s x = false ∨ ∃ q, p ≤ q ∧ q < slen ∧ small q = true ∧
        ∃ t, 0 ≤ t ∧ x = kpIndex start q + t * q ∧ x < len := by
  induction s, start, len, p, hp using helperLoop.induct small slen with
  | case1 s start len p hp hlt ih =>
    rw [helperLoop, if_pos hlt]
    by_cases hsp : small p = true
    · rw [if_pos hsp]
      rw [dif_pos hsp] at ih
      rw [ih, markSegLoop_false_iff]
      constructor
      · rintro ((hsx | ⟨t, ht0, hx, hxlen⟩) | ⟨q, hq1, hq2, hq3, t, ht0, hx, hxlen⟩)
        · exact Or.inl hsx
        · exact Or.inr ⟨p, le_rfl, hlt, hsp, t, ht0, hx, hxlen⟩
        · exact Or.inr ⟨q, by omega, hq2, hq3, t, ht0, hx, hxlen⟩
      · rintro (hsx | ⟨q, hq1, hq2, hq3, t, ht0, hx, hxlen⟩)
        · exact Or.inl (Or.inl hsx)
        · rcases eq_or_lt_of_le hq1 with hq | hq
          · subst hq
            exact Or.inl (Or.inr ⟨t, ht0, hx, hxlen⟩)
          · exact Or.inr ⟨q, by omega, hq2, hq3, t, ht0, hx, hxlen⟩
    · rw [if_neg hsp]
      rw [dif_neg hsp] at ih
      rw [ih]
      constructor
      · rintro (hsx | ⟨q, hq1, hq2, hq3, t, ht0, hx, hxlen⟩)
        · exact Or.inl hsx
        · exact Or.inr ⟨q, by omega, hq2, hq3, t, ht0, hx, hxlen⟩
      · rintro (hsx | ⟨q, hq1, hq2, hq3, t, ht0, hx, hxlen⟩)
        · exact Or.inl hsx
        · rcases eq_or_lt_of_le hq1 with hq | hq
          · subst hq
            rw [hq3] at hsp
            exact absurd rfl hsp
          · exact Or.inr ⟨q, by omega, hq2, hq3, t, ht0, hx, hxlen⟩
  | case2 s start len p hp hlt =>
    rw [helperLoop, if_neg hlt]
    constructor
    · intro h
      exact Or.inl h
    · rintro (h | ⟨q, hq1, hq2, _⟩)
      · exact h
      · exfalso
        omega

theorem segmentSieve_false_iff (start len i : ℤ) :
    segmentSieve start len i = false ↔
      ∃ q, 2 ≤ q ∧ q < upper_bound ∧ find_small_primes q = true ∧
        ∃ t, 0 ≤ t ∧ i = kpIndex start q + t * q ∧ i < len := by
  unfold segmentSieve
  rw [helperLoop_false_iff]
  simp [initSieve]

theorem segment_marked_iff (start len i : ℤ) (hs : 2 ≤ start) (h0 : 0 ≤ i) :
    segmentSieve start len i = false ↔
      ∃ q : ℤ, 2 ≤ q ∧ q < upper_bound ∧ q.toNat.Prime ∧
        q ∣ (start + i) ∧ start + i ≠ q ∧ i < len := by
  rw [segmentSieve_false_iff]
  constructor
  · rintro ⟨q, hq2, hqub, hqtrue, t, ht0, hi, hilen⟩
    have hqprime : q.toNat.Prime := (find_small_primes_iff q (by omega) hqub).1 hqtrue
    have hdvd1 := kpIndex_dvd start q (by omega)
    have hgt := kpIndex_gt start q hs hq2
    have htq : 0 ≤ t * q := mul_nonneg ht0 (by omega)
    refine ⟨q, hq2, hqub, hqprime, ?_, by omega, hilen⟩
    have h1 : start + i = (start + kpIndex start q) + t * q := by omega
    rw [h1]
    exact dvd_add hdvd1 (dvd_mul_left q t)
  · rintro ⟨q, hq2, hqub, hqprime, hdvd, hne, hilen⟩
    have hqtrue : find_small_primes q = true :=
      (find_small_primes_iff q (by omega) hqub).2 hqprime
    have hpos : 0 < start + i := by omega
    have hle : q ≤ start + i := Int.le_of_dvd hpos hdvd
    have hgt : q < start + i := by omega
    have hmin := kpIndex_min start q i hs hq2 h0 hdvd hgt
    have hdvd1 := kpIndex_dvd start q (by omega)
    have hdiff : q ∣ i - kpIndex start q := by
      have h1 : i - kpIndex start q = (start + i) - (start + kpIndex start q) := by ring
      rw [h1]
      exact dvd_sub hdvd hdvd1
    rcases hdiff with ⟨t, ht⟩
    have ht0 : 0 ≤ t := by nlinarith
    have hcomm : q * t = t * q := by ring
    exact ⟨q, hq2, hqub, hqtrue, t, ht0, by omega, hilen⟩

theorem segmentSieve_true_iff (start len i : ℤ) (hs : 2 ≤ start)
    (hub : start + len ≤ 2 ^ 63) (h0 : 0 ≤ i) (hlen : i < len) :
    (segmentSieve start len i = true ↔ (start + i).toNat.Prime) := by
  have hv2 : 2 ≤ start + i := by omega
  have hvlt : start + i < 2 ^ 63 := by omega
  constructor
  · intro htrue
    by_contra hc
    have hq2 : 2 ≤ ((start + i).toNat.minFac : ℤ) := by
      have := (Nat.minFac_prime (show (start + i).toNat ≠ 1 by omega)).two_le
      omega
    have hqub : ((start + i).toNat.minFac : ℤ) < upper_bound :=
      minFac_lt_upper_bound (start + i) hv2 hvlt hc
    have hqdvd : ((start + i).toNat.minFac : ℤ) ∣ (start + i) := by
      have h1 : ((start + i).toNat.minFac : ℤ) ∣ ((start + i).toNat : ℤ) :=
        Int.natCast_dvd_natCast.2 (Nat.minFac_dvd _)
      rwa [Int.toNat_of_nonneg (by omega)] at h1
    have hqprime : ((start + i).toNat.minFac : ℤ).toNat.Prime := by
      rw [Int.toNat_natCast]
      exact Nat.minFac_prime (by omega)
    have hqne : start + i ≠ ((start + i).toNat.minFac : ℤ) := by
      intro heq
      apply hc
      have h1 : (start + i).toNat = (start + i).toNat.minFac := by omega
      rw [h1]
      exact Nat.minFac_prime (by omega)
    have hfalse : segmentSieve start len i = false :=
      (segment_marked_iff start len i hs h0).2
        ⟨_, hq2, hqub, hqprime, hqdvd, hqne, hlen⟩
    rw [hfalse] at htrue
    exact absurd htrue (by simp)
  · intro hprime
    by_contra hc
    have hfalse : segmentSieve start len i = false := by
      cases h : segmentSieve start len i
      · rfl
      · exact absurd h hc
    rcases (segment_marked_iff start len i hs h0).1 hfalse with
      ⟨q, hq2, hqub, hqprime, hdvd, hne, _⟩
    have hdvdn : q.toNat ∣ (start + i).toNat := by
      rcases hdvd with ⟨c, hcc⟩
      have hc0 : 0 ≤ c := by nlinarith
      refine ⟨c.toNat, ?_⟩
      have h1 : ((start + i).toNat : ℤ) = ((q.toNat * c.toNat : ℕ) : ℤ) := by
        push_cast
        rw [Int.toNat_of_nonneg (by omega), Int.toNat_of_nonneg (by omega),
          Int.toNat_of_nonneg hc0]
        exact hcc
      exact_mod_cast h1
    rcases (Nat.Prime.eq_one_or_self_of_dvd hprime q.toNat hdvdn) with h1 | h1
    · omega
    · apply hne
      omega

/-!
The counting loop computes a Finset cardinality, and assembly of the
helper's full functional correctness.
-/

theorem countLoop_eq (s : ℤ → Bool) (len i acc : ℤ) :
    countLoop s len i acc =
      acc + (((Finset.Ico i len).filter (fun x => s x = true)).card : ℤ) := by
  induction i, acc using countLoop.induct s len with
  | case1 i acc hlt ih =>
    rw [countLoop, if_pos hlt]
    have hins : Finset.Ico i len = insert i (Finset.Ico (i + 1) len) := by
      ext y
      simp only [Finset.mem_Ico, Finset.mem_insert]
      omega
    rw [hins, Finset.filter_insert]
    by_cases hsi : s i = true
    · rw [dif_pos hsi] at ih
      rw [if_pos hsi, if_pos hsi, ih]
      rw [Finset.card_insert_of_not_mem (by simp)]
      push_cast
      ring
    · rw [dif_neg hsi] at ih
      rw [if_neg hsi, if_neg hsi, ih]
      ring
  | case2 i acc hlt =>
    rw [countLoop, if_neg hlt]
    rw [Finset.Ico_eq_empty (by omega)]
    simp

theorem helper_eq_countLoop (start len : ℤ) :
    count_primes_in_interval_helper start len find_small_primes upper_bound =
      countLoop (segmentSieve start len) len 0 0 := rfl

theorem primeCount_zero_of_le_two (a b : ℤ) (hb : b ≤ 2) : primeCount a b = 0 := by
  unfold primeCount
  rw [Finset.card_eq_zero, Finset.filter_eq_empty_iff]
  intro v hv
  rw [Finset.mem_Ico] at hv
  intro hp
  have := hp.two_le
  omega

theorem primeCount_empty (a b : ℤ) (h : b ≤ a) : primeCount a b = 0 := by
  unfold primeCount
  rw [Finset.Ico_eq_empty (by omega)]
  simp

theorem primeCount_split (a m b : ℤ) (h1 : a ≤ m) (h2 : m ≤ b) :
    primeCount a m + primeCount m b = primeCount a b := by
  unfold primeCount
  rw [← Finset.card_union_of_disjoint
    (Finset.disjoint_filter_filter (Finset.Ico_disjoint_Ico_consecutive a m b)),
    ← Finset.filter_union, Finset.Ico_union_Ico_eq_Ico h1 h2]

theorem primeCount_clamp (a b : ℤ) (ha : a ≤ 2) (hb : 2 ≤ b) :
    primeCount a b = primeCount 2 b := by
  rw [← primeCount_split a 2 b ha hb, primeCount_zero_of_le_two a 2 le_rfl]
  omega

theorem helper_count_eq (start len : ℤ) (hs : 2 ≤ start)
    (hub : start + len ≤ 2 ^ 63) :
    count_primes_in_interval_helper start len find_small_primes upper_bound =
      (primeCount start (start + len) : ℤ) := by
  rw [helper_eq_countLoop, countLoop_eq]
  rw [zero_add]
  congr 1
  unfold primeCount
  have hmap : Finset.Ico start (start + len) =
      (Finset.Ico (0:ℤ) len).map (addLeftEmbedding start) := by
    rw [Finset.map_add_left_Ico]
    rw [add_zero]
  rw [hmap, Finset.filter_map, Finset.card_map]
  apply Finset.card_nbij id
  · intro x hx
    simp only [Finset.mem_coe, Finset.mem_filter, Finset.mem_Ico] at hx ⊢
    rcases hx with ⟨⟨hx0, hxlen⟩, hxs⟩
    refine ⟨⟨hx0, hxlen⟩, ?_⟩
    simp only [Function.comp_apply, addLeftEmbedding_apply]
    exact (segmentSieve_true_iff start len x hs hub hx0 hxlen).1 hxs
  · intro x hx y hy hxy
    exact hxy
  · intro x hx
    simp only [Finset.coe_filter, Set.mem_setOf_eq, Finset.mem_Ico,
      Function.comp_apply, addLeftEmbedding_apply] at hx
    rcases hx with ⟨⟨hx0, hxlen⟩, hxp⟩
    refine ⟨x, ?_, rfl⟩
    simp only [Finset.mem_coe, Finset.mem_filter, Finset.mem_Ico]
    exact ⟨⟨hx0, hxlen⟩, (segmentSieve_true_iff start len x hs hub hx0 hxlen).2 hxp⟩

theorem segmentLoop_eq (start len acc : ℤ) :
    2 ≤ start → start + len ≤ 2 ^ 63 →
      segmentLoop find_small_primes upper_bound start len acc =
        acc + (primeCount start (start + len) : ℤ) := by
  induction start, len, acc using segmentLoop.induct find_small_primes upper_bound with
  | case1 start len acc hlt ih =>
    intro hs hub
    have hM : MAX_SIEVE_LENGTH = 1073741824 := by norm_num [MAX_SIEVE_LENGTH]
    rw [segmentLoop, if_pos hlt]
    rw [ih (by omega) (by omega)]
    have h4 : start + MAX_SIEVE_LENGTH + (len - MAX_SIEVE_LENGTH) = start + len := by
      ring
    rw [h4]
    rw [helper_count_eq start MAX_SIEVE_LENGTH hs (by omega)]
    have hsplit := primeCount_split start (start + MAX_SIEVE_LENGTH) (start + len)
      (by omega) (by omega)
    omega
  | case2 start len acc hlt =>
    intro hs hub
    rw [segmentLoop, if_neg hlt]
    rw [helper_count_eq start len hs hub]

theorem count_primes_master (start len : ℤ) (hub : start + len ≤ 2 ^ 63 - 1) :
    count_primes_in_interval start len = (primeCount start (start + len) : ℤ) := by
  unfold count_primes_in_interval
  by_cases h1 : len ≤ 0
  · rw [if_pos h1, primeCount_empty start (start + len) (by omega)]
    simp
  · rw [if_neg h1]
    by_cases h2 : start + len ≤ 2
    · rw [if_pos h2, primeCount_zero_of_le_two start (start + len) h2]
      simp
    · rw [if_neg h2]
      by_cases h3 : start < 2
      · rw [if_pos h3, if_pos h3]
        rw [segmentLoop_eq 2 (len - (2 - start)) 0 (by omega) (by omega)]
        rw [zero_add]
        have h4 : 2 + (len - (2 - start)) = start + len := by ring
        rw [h4]
        rw [primeCount_clamp start (start + len) (by omega) (by omega)]
      · rw [if_neg h3, if_neg h3]
        rw [segmentLoop_eq start len 0 (by omega) (by omega)]
        rw [zero_add]

/-!
Correctness of the specification-side naive one-pass count (for the
segmentation-refinement claim), and lemmas about the call and mark traces.
-/

theorem naiveSieveCount_eq (start len : ℤ) (hs : 2 ≤ start) :
    naiveSieveCount start len = (primeCount start (start + len) : ℤ) := by
  unfold naiveSieveCount
  rw [countLoop_eq, zero_add]
  congr 1
  unfold primeCount
  have hmap : Finset.Ico start (start + len) =
      (Finset.Ico (0:ℤ) len).map (addLeftEmbedding start) := by
    rw [Finset.map_add_left_Ico]
    rw [add_zero]
  rw [hmap, Finset.filter_map, Finset.card_map]
  apply Finset.card_nbij id
  · intro x hx
    simp only [Finset.mem_coe, Finset.mem_filter, Finset.mem_Ico] at hx ⊢
    rcases hx with ⟨⟨hx0, hxlen⟩, hxs⟩
    refine ⟨⟨hx0, hxlen⟩, ?_⟩
    simp only [Function.comp_apply, addLeftEmbedding_apply]
    exact (classicSieve_iff (start + len) (start + x) (by omega) (by omega)).1 hxs
  · intro x hx y hy hxy
    exact hxy
  · intro x hx
    simp only [Finset.coe_filter, Set.mem_setOf_eq, Finset.mem_Ico,
      Function.comp_apply, addLeftEmbedding_apply] at hx
    rcases hx with ⟨⟨hx0, hxlen⟩, hxp⟩
    refine ⟨x, ?_, rfl⟩
    simp only [Finset.mem_coe, Finset.mem_filter, Finset.mem_Ico]
    exact ⟨⟨hx0, hxlen⟩,
      (classicSieve_iff (start + len) (start + x) (by omega) (by omega)).2 hxp⟩

theorem segmentCalls_invariant (start len : ℤ) :
    2 ≤ start → 0 < len → ∀ c ∈ segmentCalls start len,
      2 ≤ c.1 ∧ 0 < c.2 ∧ c.2 ≤ MAX_SIEVE_LENGTH := by
  have hM : MAX_SIEVE_LENGTH = 1073741824 := by norm_num [MAX_SIEVE_LENGTH]
  induction start, len using segmentCalls.induct with
  | case1 start len hlt ih =>
    intro hs hl c hc
    rw [segmentCalls, if_pos hlt] at hc
    rcases List.mem_cons.1 hc with hceq | hctail
    · subst hceq
      exact ⟨hs, by omega, le_rfl⟩
    · exact ih (by omega) (by omega) c hctail
  | case2 start len hlt =>
    intro hs hl c hc
    rw [segmentCalls, if_neg hlt] at hc
    rcases List.mem_singleton.1 hc with hceq
    subst hceq
    exact ⟨hs, hl, by omega⟩

theorem count_primes_calls_invariant (start len : ℤ) :
    ∀ c ∈ count_primes_calls start len,
      2 ≤ c.1 ∧ 0 < c.2 ∧ c.2 ≤ MAX_SIEVE_LENGTH := by
  intro c hc
  unfold count_primes_calls at hc
  by_cases h1 : len ≤ 0
  · rw [if_pos h1] at hc
    simp at hc
  · rw [if_neg h1] at hc
    by_cases h2 : start + len ≤ 2
    · rw [if_pos h2] at hc
      simp at hc
    · rw [if_neg h2] at hc
      by_cases h3 : start < 2
      · rw [if_pos h3, if_pos h3] at hc
        exact segmentCalls_invariant 2 (len - (2 - start)) (by omega) (by omega) c hc
      · rw [if_neg h3, if_neg h3] at hc
        exact segmentCalls_invariant start len (by omega) (by omega) c hc

theorem segmentLoop_eq_calls (small : ℤ → Bool) (slen start len acc : ℤ) :
    segmentLoop small slen start len acc =
      acc + ((segmentCalls start len).map
        (fun c => count_primes_in_interval_helper c.1 c.2 small slen)).sum := by
  induction start, len, acc using segmentLoop.induct small slen with
  | case1 start len acc hlt ih =>
    rw [segmentLoop, if_pos hlt, segmentCalls, if_pos hlt, ih]
    rw [List.map_cons, List.sum_cons]
    ring
  | case2 start len acc hlt =>
    rw [segmentLoop, if_neg hlt, segmentCalls, if_neg hlt]
    simp

theorem count_primes_eq_calls (start len : ℤ) :
    count_primes_in_interval start len =
      ((count_primes_calls start len).map
        (fun c => count_primes_in_interval_helper c.1 c.2
          find_small_primes upper_bound)).sum := by
  unfold count_primes_in_interval count_primes_calls
  by_cases h1 : len ≤ 0
  · rw [if_pos h1, if_pos h1]
    simp
  · rw [if_neg h1, if_neg h1]
    by_cases h2 : start + len ≤ 2
    · rw [if_pos h2, if_pos h2]
      simp
    · rw [if_neg h2, if_neg h2, segmentLoop_eq_calls, zero_add]

theorem markSegIdxs_bounds (len p k : ℤ) (hp : 1 ≤ p) :
    0 ≤ k → ∀ v ∈ markSegIdxs len p k hp, 0 ≤ v ∧ v < len := by
  induction k, hp using markSegIdxs.induct len p with
  | case1 k hp hlt ih =>
    intro hk v hv
    rw [markSegIdxs, if_pos hlt] at hv
    rcases List.mem_cons.1 hv with h | h
    · subst h
      exact ⟨hk, hlt⟩
    · exact ih (by omega) v h
  | case2 k hp hlt =>
    intro hk v hv
    rw [markSegIdxs, if_neg hlt] at hv
    simp at hv

theorem helperMarks_bounds (small : ℤ → Bool) (slen start len p : ℤ) (hp : 2 ≤ p) :
    ∀ v ∈ helperMarks small slen start len p hp, 0 ≤ v ∧ v < len := by
  induction p, hp using helperMarks.induct small slen start len with
  | case1 p hp hlt ih =>
    intro v hv
    rw [helperMarks, if_pos hlt] at hv
    rcases List.mem_append.1 hv with h | h
    · by_cases hsp : small p = true
      · rw [if_pos hsp] at h
        exact markSegIdxs_bounds len p (kpIndex start p) (by omega)
          (kpIndex_nonneg start p (by omega)) v h
      · rw [if_neg hsp] at h
        simp at h
    · exact ih v h
  | case2 p hp hlt =>
    intro v hv
    rw [helperMarks, if_neg hlt] at hv
    simp at hv

theorem markLoopVals_bounds (ub i j : ℤ) (hi : 2 ≤ i) :
    0 ≤ j → ∀ v ∈ markLoopVals ub i j hi, 0 ≤ v ∧ v < ub := by
  induction j, hi using markLoopVals.induct ub i with
  | case1 j hi hlt ih =>
    intro hj v hv
    rw [markLoopVals, if_pos hlt] at hv
    rcases List.mem_cons.1 hv with h | h
    · subst h
      exact ⟨mul_nonneg (by omega) hj, hlt⟩
    · exact ih (by omega) v h
  | case2 j hi hlt =>
    intro hj v hv
    rw [markLoopVals, if_neg hlt] at hv
    simp at hv

theorem sieveMarks_bounds (s : ℤ → Bool) (ub i : ℤ) (hi : 2 ≤ i) :
    ∀ v ∈ sieveMarks s ub i hi, 0 ≤ v ∧ v < ub := by
  induction s, ub, i, hi using sieveMarks.induct with
  | case1 s ub i hi hlt hsi ih =>
    intro v hv
    rw [sieveMarks, if_pos hlt, if_pos hsi] at hv
    rcases List.mem_append.1 hv with h | h
    · exact markLoopVals_bounds ub i 2 hi (by omega) v h
    · exact ih v h
  | case2 s ub i hi hlt hsi ih =>
    intro v hv
    rw [sieveMarks, if_pos hlt, if_neg hsi] at hv
    exact ih v hv
  | case3 s ub i hi hlt =>
    intro v hv
    rw [sieveMarks, if_neg hlt] at hv
    simp at hv

theorem findSmallMarkValues_bounds :
    ∀ v ∈ findSmallMarkValues, 0 ≤ v ∧ v < upper_bound := by
  intro v hv
  unfold findSmallMarkValues at hv
  rcases List.mem_cons.1 hv with h | hv2
  · subst h
    norm_num [upper_bound]
  · rcases List.mem_cons.1 hv2 with h | hv3
    · subst h
      norm_num [upper_bound]
    · exact sieveMarks_bounds _ upper_bound 2 (by norm_num) v hv3

/-!
The mark traces are faithful: folding mark_composite over a trace yields
exactly the cell array computed by the corresponding loop.
-/

theorem markSegLoop_eq_foldl (s : ℤ → Bool) (len p k : ℤ) (hp : 1 ≤ p) :
    markSegLoop s len p k hp = (markSegIdxs len p k hp).foldl mark_composite s := by
  induction s, len, p, k, hp using markSegLoop.induct with
  | case1 s len p k hp hlt ih =>
    rw [markSegLoop, if_pos hlt, markSegIdxs, if_pos hlt, List.foldl_cons, ih]
  | case2 s len p k hp hlt =>
    rw [markSegLoop, if_neg hlt, markSegIdxs, if_neg hlt, List.foldl_nil]

theorem markLoop_eq_foldl (s : ℤ → Bool) (ub i j : ℤ) (hi : 2 ≤ i) :
    markLoop s ub i j hi = (markLoopVals ub i j hi).foldl mark_composite s := by
  induction s, ub, i, j, hi using markLoop.induct with
  | case1 s ub i j hi hlt ih =>
    rw [markLoop, if_pos hlt, markLoopVals, if_pos hlt, List.foldl_cons, ih]
  | case2 s ub i j hi hlt =>
    rw [markLoop, if_neg hlt, markLoopVals, if_neg hlt, List.foldl_nil]

theorem sieveLoop_eq_foldl (s : ℤ → Bool) (ub i : ℤ) (hi : 2 ≤ i) :
    sieveLoop s ub i hi = (sieveMarks s ub i hi).foldl mark_composite s := by
  induction s, ub, i, hi using sieveLoop.induct with
  | case1 s ub i hi hlt ih =>
    rw [sieveLoop, if_pos hlt, sieveMarks, if_pos hlt]
    by_cases hsi : s i = true
    · rw [if_pos hsi]
      rw [dif_pos hsi] at ih
      rw [ih, if_pos hsi, List.foldl_append, ← markLoop_eq_foldl]
    · rw [if_neg hsi]
      rw [dif_neg hsi] at ih
      rw [ih, if_neg hsi]
  | case2 s ub i hi hlt =>
    rw [sieveLoop, if_neg hlt, sieveMarks, if_neg hlt, List.foldl_nil]

theorem find_small_primes_eq_foldl :
    find_small_primes = findSmallMarkValues.foldl mark_composite initSieve := by
  unfold find_small_primes findSmallMarkValues
  rw [List.foldl_cons, List.foldl_cons, ← sieveLoop_eq_foldl]

theorem helperLoop_eq_foldl (small : ℤ → Bool) (slen : ℤ) (s : ℤ → Bool)
    (start len p : ℤ) (hp : 2 ≤ p) :
    helperLoop small slen s start len p hp =
      (helperMarks small slen start len p hp).foldl mark_composite s := by
  induction s, start, len, p, hp using helperLoop.induct small slen with
  | case1 s start len p hp hlt ih =>
    rw [helperLoop, if_pos hlt, helperMarks, if_pos hlt]
    by_cases hsp : small p = true
    · rw [if_pos hsp, if_pos hsp]
      rw [dif_pos hsp] at ih
      rw [ih, List.foldl_append, ← markSegLoop_eq_foldl]
    · rw [if_neg hsp, if_neg hsp]
      rw [dif_neg hsp] at ih
      rw [ih, List.nil_append]
  | case2 s start len p hp hlt =>
    rw [helperLoop, if_neg hlt, helperMarks, if_neg hlt, List.foldl_nil]

theorem segmentSieve_eq_foldl (start len : ℤ) :
    segmentSieve start len =
      (helperMarkIndices start len find_small_primes upper_bound).foldl
        mark_composite initSieve := by
  unfold segmentSieve helperMarkIndices
  rw [← helperLoop_eq_foldl]

/-!
Remaining general-purpose lemmas used by the claim theorems.
-/

theorem foldl_mark_composite_not_mem (l : List ℤ) (s : ℤ → Bool) (v : ℤ)
    (h : ∀ u ∈ l, u ≠ v) : (l.foldl mark_composite s) v = s v := by
  induction l generalizing s with
  | nil => rfl
  | cons u tl ih =>
    rw [List.foldl_cons, ih _ (fun w hw => h w (List.mem_cons_of_mem u hw))]
    unfold mark_composite
    rw [if_neg (fun hv => h u (List.mem_cons_self u tl) hv.symm)]

/-!
Claim theorems.
-/

/-- Claim C1: for every start and length such that start+length stays in the
64-bit signed range, count_primes_in_interval start length returns exactly
the number of primes in the half-open interval [start, start+length), where
negative numbers, 0 and 1 are not prime.  The concrete scenarios of the
claim are discharged in the witness theorem. -/
theorem C1_count_primes_exact (start len : ℤ)
    (hub : start + len ≤ 2 ^ 63 - 1) :
    count_primes_in_interval start len = (primeCount start (start + len) : ℤ) :=
  count_primes_master start len hub

/-- Witness for C1: the five concrete scenarios of the claim, each obtained
by applying C1_count_primes_exact and evaluating the prime count. -/
theorem C1_count_primes_exact_witness :
    count_primes_in_interval 0 10 = 4 ∧
    count_primes_in_interval 10 10 = 4 ∧
    count_primes_in_interval 0 2 = 0 ∧
    count_primes_in_interval (-5) 7 = 0 ∧
    count_primes_in_interval 2 1 = 1 := by
  refine ⟨?_, ?_, ?_, ?_, ?_⟩
  · rw [C1_count_primes_exact 0 10 (by norm_num)]
    rw [show primeCount 0 (0 + 10) = 4 from by decide]
    norm_num
  · rw [C1_count_primes_exact 10 10 (by norm_num)]
    rw [show primeCount 10 (10 + 10) = 4 from by decide]
    norm_num
  · rw [C1_count_primes_exact 0 2 (by norm_num)]
    rw [show primeCount 0 (0 + 2) = 0 from by decide]
    norm_num
  · rw [C1_count_primes_exact (-5) 7 (by norm_num)]
    rw [show primeCount (-5) (-5 + 7) = 0 from by decide]
    norm_num
  · rw [C1_count_primes_exact 2 1 (by norm_num)]
    rw [show primeCount 2 (2 + 1) = 1 from by decide]
    norm_num

/-- Counterexample for C2 as stated: the extent of the small-primes sieve is
not ceil(1.42 * 2^31) = 3049426781 but one less, because the C expression
truncates the double product 1.42 * 2^31 = 3049426780.16 toward zero.
Moreover the cell of index 3049426780 (the largest index that a sieve of
extent ceil(1.42*2^31) would have to cover) is outside the actual table:
no marking ever reaches it, so in the embedding it still reads true even
though 3049426780 is composite, refuting the stated iff at that index. -/
theorem C2_counterexample :
    upper_bound ≠ ⌈(142 / 100 : ℚ) * 2 ^ 31⌉ ∧
    find_small_primes 3049426780 = true ∧
    ¬ (3049426780 : ℤ).toNat.Prime := by
  refine ⟨?_, ?_, by decide⟩
  · rw [ceil_of_142_pow31]
    norm_num [upper_bound]
  · rw [find_small_primes_eq_foldl]
    rw [foldl_mark_composite_not_mem _ _ _ ?_]
    · rfl
    · intro u hu
      have := findSmallMarkValues_bounds u hu
      have hub : upper_bound = 3049426780 := rfl
      omega

/-- Claim C2 (amended): after find_small_primes completes, the resulting
sieve covers [0, U) with U = 3049426780 (the truncation of the double
product 1.42 * 2^31, one less than the ceiling the specification states),
and for every index i in [0, U) the cell for i reads true if and only if i
is prime. -/
theorem C2_small_primes_table (i : ℤ) (h0 : 0 ≤ i) (hub : i < upper_bound) :
    upper_bound = 3049426780 ∧
    (find_small_primes i = true ↔ i.toNat.Prime) :=
  ⟨rfl, find_small_primes_iff i h0 hub⟩

/-- Witness for C2: the hypotheses hold at i = 7 and the table cell of 7
then reads true iff 7 is prime. -/
theorem C2_small_primes_table_witness :
    (0 : ℤ) ≤ 7 ∧ (7 : ℤ) < upper_bound ∧
      (upper_bound = 3049426780 ∧
        (find_small_primes 7 = true ↔ (7 : ℤ).toNat.Prime)) :=
  ⟨by norm_num, by norm_num [upper_bound],
    C2_small_primes_table 7 (by norm_num) (by norm_num [upper_bound])⟩

/-- Claim C3: for a prime p and a segment starting at segment_start >= 2,
the computed index kpIndex is the least nonnegative k such that
segment_start + k is a multiple of p exceeding p; consequently, when p
itself lies inside the segment, the cell of p in the sieved segment still
reads true (p is never marked composite). -/
theorem C3_kp_index_least (p start len : ℤ) (hp : p.toNat.Prime)
    (hs : 2 ≤ start) :
    IsLeast {k : ℤ | 0 ≤ k ∧ p ∣ start + k ∧ p < start + k} (kpIndex start p) ∧
    (start ≤ p → p < start + len → segmentSieve start len (p - start) = true) := by
  have hp2 : 2 ≤ p := by
    have := hp.two_le
    omega
  constructor
  · constructor
    · exact ⟨kpIndex_nonneg start p (by omega), kpIndex_dvd start p (by omega),
        kpIndex_gt start p hs hp2⟩
    · rintro k ⟨hk0, hdvd, hgt⟩
      exact kpIndex_min start p k hs hp2 hk0 hdvd hgt
  · intro h1 h2
    by_contra hc
    have hfalse : segmentSieve start len (p - start) = false := by
      cases h : segmentSieve start len (p - start)
      · rfl
      · exact absurd h hc
    rcases (segment_marked_iff start len (p - start) hs (by omega)).1 hfalse with
      ⟨q, hq2, _, hqprime, hdvd, hne, _⟩
    have hsp : start + (p - start) = p := by ring
    rw [hsp] at hdvd hne
    have hdvdn : q.toNat ∣ p.toNat := by
      rcases hdvd with ⟨c, hcc⟩
      have hc0 : 0 ≤ c := by nlinarith
      refine ⟨c.toNat, ?_⟩
      have h3 : (p.toNat : ℤ) = ((q.toNat * c.toNat : ℕ) : ℤ) := by
        push_cast
        rw [Int.toNat_of_nonneg (by omega), Int.toNat_of_nonneg (by omega),
          Int.toNat_of_nonneg hc0]
        exact hcc
      exact_mod_cast h3
    rcases hp.eq_one_or_self_of_dvd q.toNat hdvdn with h3 | h3
    · omega
    · exact hne (by omega)

/-- Witness for C3: the prime 5 and the segment [3, 3+4) containing it. -/
theorem C3_kp_index_least_witness :
    (5 : ℤ).toNat.Prime ∧ (2 : ℤ) ≤ 3 ∧
      (IsLeast {k : ℤ | 0 ≤ k ∧ (5:ℤ) ∣ 3 + k ∧ (5:ℤ) < 3 + k} (kpIndex 3 5) ∧
        ((3:ℤ) ≤ 5 → (5:ℤ) < 3 + 4 → segmentSieve 3 4 (5 - 3) = true)) :=
  ⟨by decide, by norm_num, C3_kp_index_least 5 3 4 (by decide) (by norm_num)⟩

/-- Counterexample for C4 as stated: the extent is not ceil(1.42*2^31)
(the code truncates 3049426780.16 to 3049426780, while the ceiling is
3049426781); moreover it is not true that every prime factor of every
composite below 2^63 is an index of the table: doubling any prime above
the extent (such a prime exists by Bertrand's postulate) gives a composite
below 2^63 with a prime factor outside the table. -/
theorem C4_counterexample :
    upper_bound ≠ ⌈(71 / 50 : ℚ) * 2 ^ 31⌉ ∧
    ∃ n p : ℤ, 2 ≤ n ∧ n < 2 ^ 63 ∧ ¬ n.toNat.Prime ∧
      p.toNat.Prime ∧ p ∣ n ∧ ¬ p < upper_bound := by
  constructor
  · have h : ((71 : ℚ) / 50) = 142 / 100 := by norm_num
    rw [h, ceil_of_142_pow31]
    norm_num [upper_bound]
  · obtain ⟨q, hq, hlb, hqub⟩ :=
      Nat.exists_prime_lt_and_le_two_mul 3049426780 (by norm_num)
    refine ⟨2 * (q : ℤ), (q : ℤ), ?_, ?_, ?_, ?_, ?_, ?_⟩
    · have := hq.two_le
      omega
    · omega
    · have h1 : (2 * (q : ℤ)).toNat = 2 * q := by
        omega
      rw [h1]
      exact Nat.not_prime_mul (by omega) (by have := hq.two_le; omega)
    · rw [Int.toNat_natCast]
      exact hq
    · exact dvd_mul_left (q : ℤ) 2
    · have hub : upper_bound = 3049426780 := rfl
      omega

/-- Claim C4 (amended): the extent of the small-primes table is exactly
3049426780, the truncation of the double product 1.42 * 2^31 (one below the
ceiling that the specification states); this extent still exceeds
2^31 * sqrt 2 = sqrt (2^63), and consequently every composite below 2^63
has at least one prime factor that is an index of the table. -/
theorem C4_extent_bound :
    upper_bound = 3049426780 ∧
    2 ^ 63 < upper_bound ^ 2 ∧
    (2 : ℝ) ^ 31 * Real.sqrt 2 < (upper_bound : ℝ) ∧
    Real.sqrt ((2 : ℝ) ^ 63) < (upper_bound : ℝ) ∧
    ∀ n : ℤ, 2 ≤ n → n < 2 ^ 63 → ¬ n.toNat.Prime →
      ∃ p : ℤ, p.toNat.Prime ∧ p ∣ n ∧ 0 ≤ p ∧ p < upper_bound := by
  have hsqrt : Real.sqrt ((2 : ℝ) ^ 63) < (upper_bound : ℝ) := by
    rw [show ((upper_bound : ℤ) : ℝ) = (3049426780 : ℝ) from by norm_num [upper_bound]]
    rw [show ((2 : ℝ) ^ 63) = (9223372036854775808 : ℝ) from by norm_num]
    rw [Real.sqrt_lt' (by norm_num)]
    norm_num
  have hmul : (2 : ℝ) ^ 31 * Real.sqrt 2 = Real.sqrt ((2 : ℝ) ^ 63) := by
    rw [show ((2 : ℝ) ^ 63) = ((2 : ℝ) ^ 31) ^ 2 * 2 from by norm_num]
    rw [Real.sqrt_mul (by positivity), Real.sqrt_sq (by positivity)]
  refine ⟨rfl, upper_bound_sq_gt, ?_, hsqrt, ?_⟩
  · rw [hmul]
    exact hsqrt
  · intro n h2 hlt hc
    refine ⟨(n.toNat.minFac : ℤ), ?_, ?_, by positivity, ?_⟩
    · rw [Int.toNat_natCast]
      exact Nat.minFac_prime (by omega)
    · have h1 : (n.toNat.minFac : ℤ) ∣ ((n.toNat : ℕ) : ℤ) :=
        Int.natCast_dvd_natCast.2 (Nat.minFac_dvd _)
      rwa [Int.toNat_of_nonneg (by omega)] at h1
    · exact minFac_lt_upper_bound n h2 hlt hc

/-- Witness for C4: the composite 4 has the prime factor 2 inside the
table, obtained by applying the final clause of C4_extent_bound. -/
theorem C4_extent_bound_witness :
    (2 : ℤ) ≤ 4 ∧ (4 : ℤ) < 2 ^ 63 ∧ ¬ (4 : ℤ).toNat.Prime ∧
      ∃ p : ℤ, p.toNat.Prime ∧ p ∣ 4 ∧ 0 ≤ p ∧ p < upper_bound :=
  ⟨by norm_num, by norm_num, by decide,
    C4_extent_bound.2.2.2.2 4 (by norm_num) (by norm_num) (by decide)⟩

/-- Claim C5: segmentation does not change the result; for every interval
that straddles a multiple of MAX_SIEVE_LENGTH, the segmented count equals
one unsegmented pass of the naive Sieve of Eratosthenes over the same
range. -/
theorem C5_segmentation_refines_naive (start len : ℤ) (hs : 2 ≤ start)
    (hl : 0 < len) (hub : start + len ≤ 2 ^ 63 - 1)
    (hstraddle : ∃ j : ℤ, 0 < j ∧ start < j * MAX_SIEVE_LENGTH ∧
      j * MAX_SIEVE_LENGTH < start + len) :
    count_primes_in_interval start len = naiveSieveCount start len := by
  rw [count_primes_master start len hub, naiveSieveCount_eq start len hs]

/-- Witness for C5: the interval of the claim, start = MAX_SIEVE_LENGTH - 5
and length 10, which straddles the boundary at 2^30. -/
theorem C5_segmentation_refines_naive_witness :
    (2 : ℤ) ≤ 1073741819 ∧ (0 : ℤ) < 10 ∧
      (1073741819 : ℤ) + 10 ≤ 2 ^ 63 - 1 ∧
      (∃ j : ℤ, 0 < j ∧ (1073741819 : ℤ) < j * MAX_SIEVE_LENGTH ∧
        j * MAX_SIEVE_LENGTH < 1073741819 + 10) ∧
      count_primes_in_interval 1073741819 10 = naiveSieveCount 1073741819 10 := by
  have hstraddle : ∃ j : ℤ, 0 < j ∧ (1073741819 : ℤ) < j * MAX_SIEVE_LENGTH ∧
      j * MAX_SIEVE_LENGTH < 1073741819 + 10 :=
    ⟨1, by norm_num [MAX_SIEVE_LENGTH]⟩
  exact ⟨by norm_num, by norm_num, by norm_num, hstraddle,
    C5_segmentation_refines_naive 1073741819 10 (by norm_num) (by norm_num)
      (by norm_num) hstraddle⟩

/-- Claim C6: additivity; splitting the interval at any interior point m
gives counts that add up to the whole. -/
theorem C6_additive (start len m : ℤ) (hl : 0 < len) (h1 : start < m)
    (h2 : m < start + len) (hub : start + len ≤ 2 ^ 63 - 1) :
    count_primes_in_interval start len =
      count_primes_in_interval start (m - start) +
        count_primes_in_interval m (start + len - m) := by
  rw [count_primes_master start len hub,
    count_primes_master start (m - start) (by omega),
    count_primes_master m (start + len - m) (by omega)]
  rw [show start + (m - start) = m from by ring,
    show m + (start + len - m) = start + len from by ring]
  rw [← primeCount_split start m (start + len) (by omega) (by omega)]
  push_cast
  ring

/-- Witness for C6: the split of [0, 10) at m = 5. -/
theorem C6_additive_witness :
    (0 : ℤ) < 10 ∧ (0 : ℤ) < 5 ∧ (5 : ℤ) < 0 + 10 ∧
      (0 : ℤ) + 10 ≤ 2 ^ 63 - 1 ∧
      count_primes_in_interval 0 10 =
        count_primes_in_interval 0 (5 - 0) +
          count_primes_in_interval 5 (0 + 10 - 5) :=
  ⟨by norm_num, by norm_num, by norm_num, by norm_num,
    C6_additive 0 10 5 (by norm_num) (by norm_num) (by norm_num) (by norm_num)⟩

/-- Claim C7: clamping; for start < 2 with start+length > 2 within the
64-bit range, the count equals the count over the clamped interval starting
at 2 with the length shrunk by 2 - start. -/
theorem C7_clamping (start len : ℤ) (h1 : start < 2) (h2 : 2 < start + len)
    (hub : start + len ≤ 2 ^ 63 - 1) :
    count_primes_in_interval start len =
      count_primes_in_interval 2 (len - (2 - start)) := by
  rw [count_primes_master start len hub,
    count_primes_master 2 (len - (2 - start)) (by omega)]
  rw [show (2 : ℤ) + (len - (2 - start)) = start + len from by ring]
  rw [primeCount_clamp start (start + len) (by omega) (by omega)]

/-- Witness for C7: start = -5, length = 10, clamped to [2, 5). -/
theorem C7_clamping_witness :
    (-5 : ℤ) < 2 ∧ (2 : ℤ) < -5 + 10 ∧ (-5 : ℤ) + 10 ≤ 2 ^ 63 - 1 ∧
      count_primes_in_interval (-5) 10 =
        count_primes_in_interval 2 (10 - (2 - (-5))) :=
  ⟨by norm_num, by norm_num, by norm_num,
    C7_clamping (-5) 10 (by norm_num) (by norm_num) (by norm_num)⟩

/-- Claim C8: degenerate intervals return zero; any nonpositive length
returns 0, and any interval whose high endpoint is at most 2 returns 0. -/
theorem C8_degenerate_zero (start len : ℤ) :
    (len ≤ 0 → count_primes_in_interval start len = 0) ∧
    (start + len ≤ 2 → count_primes_in_interval start len = 0) := by
  constructor
  · intro h
    unfold count_primes_in_interval
    rw [if_pos h]
  · intro h
    unfold count_primes_in_interval
    by_cases h1 : len ≤ 0
    · rw [if_pos h1]
    · rw [if_neg h1, if_pos h]

/-- Witness for C8: a negative length and the interval [0, 2). -/
theorem C8_degenerate_zero_witness :
    count_primes_in_interval 5 (-3) = 0 ∧ count_primes_in_interval 0 2 = 0 :=
  ⟨(C8_degenerate_zero 5 (-3)).1 (by norm_num),
    (C8_degenerate_zero 0 2).2 (by norm_num)⟩

/-- Claim C9: invariant of the segmentation loop; MAX_SIEVE_LENGTH is 2^30,
every (start, length) pair passed to count_primes_in_interval_helper
satisfies 2 <= start and 0 < length <= MAX_SIEVE_LENGTH, and the result of
count_primes_in_interval is exactly the sum of the helper results over this
list of calls. -/
theorem C9_helper_call_invariant (start len : ℤ) :
    MAX_SIEVE_LENGTH = 2 ^ 30 ∧
    (∀ c ∈ count_primes_calls start len,
      2 ≤ c.1 ∧ 0 < c.2 ∧ c.2 ≤ MAX_SIEVE_LENGTH) ∧
    count_primes_in_interval start len =
      ((count_primes_calls start len).map
        (fun c => count_primes_in_interval_helper c.1 c.2
          find_small_primes upper_bound)).sum :=
  ⟨rfl, count_primes_calls_invariant start len, count_primes_eq_calls start len⟩

/-- Witness for C9: the call count_primes_in_interval 0 7 produces exactly
one helper call, with clamped start 2 and positive length 5. -/
theorem C9_helper_call_invariant_witness :
    ((2 : ℤ), (5 : ℤ)) ∈ count_primes_calls 0 7 ∧
      (2 ≤ (2 : ℤ) ∧ (0 : ℤ) < 5 ∧ (5 : ℤ) ≤ MAX_SIEVE_LENGTH) := by
  have hmem : ((2 : ℤ), (5 : ℤ)) ∈ count_primes_calls 0 7 := by
    unfold count_primes_calls
    rw [if_neg (by norm_num), if_neg (by norm_num),
      if_pos (by norm_num : (0 : ℤ) < 2), if_pos (by norm_num : (0 : ℤ) < 2)]
    rw [segmentCalls, if_neg (by norm_num [MAX_SIEVE_LENGTH])]
    norm_num
  exact ⟨hmem, (C9_helper_call_invariant 0 7).2.1 (2, 5) hmem⟩

/-- Claim C10: in-bounds marking; every index passed to mark_composite on
the helper's segment sieve lies in [0, length) (under the loop invariant
start >= 2 and 0 < length <= MAX_SIEVE_LENGTH), and every value passed to
mark_composite by find_small_primes lies in [0, upper_bound).  The traces
are faithful: folding mark_composite over them reproduces the cell arrays
the loops compute (helperLoop_eq_foldl, find_small_primes_eq_foldl). -/
theorem C10_marks_in_bounds :
    (∀ (small : ℤ → Bool) (slen start len : ℤ), 2 ≤ start → 0 < len →
      len ≤ MAX_SIEVE_LENGTH →
      ∀ v ∈ helperMarkIndices start len small slen, 0 ≤ v ∧ v < len) ∧
    (∀ v ∈ findSmallMarkValues, 0 ≤ v ∧ v < upper_bound) := by
  constructor
  · intro small slen start len hs hl hm v hv
    exact helperMarks_bounds small slen start len 2 (by norm_num) v hv
  · exact findSmallMarkValues_bounds

/-- Witness for C10: for the segment [2, 2+4) with an all-true table of
length 3, the marking trace contains index 2 and it lies within [0, 4);
and 0 is among the values find_small_primes marks, within the table. -/
theorem C10_marks_in_bounds_witness :
    ((2 : ℤ) ≤ 2 ∧ (0 : ℤ) < 4 ∧ (4 : ℤ) ≤ MAX_SIEVE_LENGTH ∧
      (2 : ℤ) ∈ helperMarkIndices 2 4 (fun _ => true) 3 ∧
      (0 ≤ (2 : ℤ) ∧ (2 : ℤ) < 4)) ∧
    ((0 : ℤ) ∈ findSmallMarkValues ∧ (0 ≤ (0 : ℤ) ∧ (0 : ℤ) < upper_bound)) := by
  have hmem : (2 : ℤ) ∈ helperMarkIndices 2 4 (fun _ => true) 3 := by
    unfold helperMarkIndices
    rw [helperMarks, if_pos (by norm_num : (2 : ℤ) < 3)]
    apply List.mem_append_left
    rw [if_pos (rfl : (fun _ : ℤ => true) 2 = true)]
    rw [show kpIndex 2 2 = 2 from rfl]
    rw [markSegIdxs, if_pos (by norm_num : (2 : ℤ) < 4)]
    exact List.mem_cons_self _ _
  have hmem0 : (0 : ℤ) ∈ findSmallMarkValues := by
    unfold findSmallMarkValues
    exact List.mem_cons_self _ _
  exact ⟨⟨le_rfl, by norm_num, by norm_num [MAX_SIEVE_LENGTH], hmem,
      C10_marks_in_bounds.1 (fun _ => true) 3 2 4 le_rfl (by norm_num)
        (by norm_num [MAX_SIEVE_LENGTH]) 2 hmem⟩,
    ⟨hmem0, C10_marks_in_bounds.2 0 hmem0⟩⟩
